import Mathlib

/-!
Verification of the Gene Ontology graph provider
(`rcsb/utils/go/GeneOntologyProvider.py`).

The provider wraps a `networkx.MultiDiGraph` built by `obonet.read_obo`:
nodes are GO term ids carrying an attribute dictionary; each directed edge
`(child, parent, key)` points from the more specific term to the more
general one and carries a relationship-kind key, with parallel edges of
distinct kinds preserved.  Term ids (strings in the source) are modelled
as naturals, with the numeric order standing for the string order used by
Python's `sorted`; relationship kinds and attribute keys stay strings.
The provider's internal graph may be `None` when loading failed, so every
operation takes an `Option GoGraph`.
-/

namespace GoP

/-- The in-memory multigraph: nodes with their attribute mapping, and the
directed `(child, parent, kind)` edges (parallel edges allowed). -/
structure GoGraph where
  nodes : List (Nat × List (String × String))
  edges : List (Nat × Nat × String)

/-- Ids of the graph's nodes, in insertion order (`list(G.nodes)`). -/
def nodeIds (g : GoGraph) : List Nat :=
  g.nodes.map Prod.fst

/-- `goId in G` for a loaded graph. -/
def hasNode (g : GoGraph) (n : Nat) : Bool :=
  g.nodes.any (fun p => p.1 == n)

/-- Raw successor list of `n`: the parent endpoint of every out-edge of
`n`, one entry per parallel edge, in edge order. -/
def succsRaw (g : GoGraph) (n : Nat) : List Nat :=
  (g.edges.filter (fun e => e.1 == n)).map (fun e => e.2.1)

/-- One directed step along an edge (child to parent), any kind. -/
def edgeStep (g : GoGraph) (a b : Nat) : Prop :=
  ∃ k, (a, b, k) ∈ g.edges

/-- Reachability along edges in their stored direction (zero or more
steps), the direction `networkx.descendants` traverses. -/
def Reaches (g : GoGraph) (x y : Nat) : Prop :=
  Relation.ReflTransGen (edgeStep g) x y

/-- The direction the spec calls "descendant": reachability against the
stored edges, from a term toward the more specific terms below it. -/
def SpecPredReaches (g : GoGraph) (x y : Nat) : Prop :=
  Relation.ReflTransGen (fun a b => edgeStep g b a) x y

/-- A nontrivial directed cycle through `n`: one edge out of `n`
followed by a path back to `n`. -/
def OnCycle (g : GoGraph) (n : Nat) : Prop :=
  ∃ m, edgeStep g n m ∧ Reaches g m n

/-- networkx invariant: both endpoints of every edge are nodes
(`add_edge` inserts missing endpoints, so this always holds for graphs
built by `obonet.read_obo`). -/
def EdgeWf (g : GoGraph) : Prop :=
  ∀ e ∈ g.edges, hasNode g e.1 = true ∧ hasNode g e.2.1 = true

instance (g : GoGraph) : DecidablePred (fun e => e ∈ g.edges) := fun _ =>
  inferInstanceAs (Decidable (_ ∈ _))

instance (g : GoGraph) : Decidable (EdgeWf g) :=
  inferInstanceAs (Decidable (∀ _ ∈ _, _))

/-! ### Order-preserving deduplication (Python `set`/`dict` insertion order) -/

/-- Keep the first occurrence of each element, skipping anything already
in `seen`. -/
def dedupFirstAux : List Nat → List Nat → List Nat
  | _, [] => []
  | seen, a :: l =>
    if a ∈ seen then dedupFirstAux seen l else a :: dedupFirstAux (a :: seen) l

/-- Keep the first occurrence of each element of `l`. -/
def dedupFirst (l : List Nat) : List Nat :=
  dedupFirstAux [] l

/-! ### Reachability closure (the set `networkx.descendants` traverses) -/

/-- Worklist saturation: add the successors of the current set until
nothing new appears or the fuel runs out. -/
def saturate (g : GoGraph) : Nat → List Nat → List Nat
  | 0, s => s
  | fuel + 1, s =>
    let newL := dedupFirst ((s.flatMap (succsRaw g)).filter (fun b => !decide (b ∈ s)))
    if newL.isEmpty then s else saturate g fuel (s ++ newL)

/-- A superset of every id the saturation from `x` can ever reach:
`x` together with the parent endpoint of every edge. -/
def allowedNodes (g : GoGraph) (x : Nat) : List Nat :=
  dedupFirst (x :: g.edges.map (fun e => e.2.1))

/-- All nodes reachable from `x` (including `x`), computed by saturation
with enough fuel to reach the closure. -/
def reachFrom (g : GoGraph) (x : Nat) : List Nat :=
  saturate g (allowedNodes g x).length [x]

/-- The closure property: a set is closed when it contains every raw
successor of each of its elements. -/
def IsClosed (g : GoGraph) (s : List Nat) : Prop :=
  ∀ a ∈ s, ∀ b ∈ succsRaw g a, b ∈ s

/-! ### networkx views used by the provider -/

/-- `networkx.descendants(G, x)`: every node reachable from `x` along the
stored (child to parent) edge direction, excluding `x` itself, as a
canonically ordered stand-in for the Python set. -/
def nxDescendants (g : GoGraph) (x : Nat) : List Nat :=
  (reachFrom g x).filter (fun y => y != x)

/-- A loosely-typed Python value, just rich enough for the dictionary
views the provider can return. -/
inductive PyV where
  | s : String → PyV
  | n : Nat → PyV
  | dict : List (PyV × PyV) → PyV

/-- Distinct direct parents of `n`, in first-edge order (the keys of the
adjacency dictionary `G[n]`). -/
def adjKeys (g : GoGraph) (n : Nat) : List Nat :=
  dedupFirst (succsRaw g n)

/-- Relationship kinds of the parallel edges from `n` to `p`, in edge
order (the keys of the inner dictionary `G[n][p]`). -/
def kindsBetween (g : GoGraph) (n p : Nat) : List String :=
  (g.edges.filter (fun e => e.1 == n && e.2.1 == p)).map (fun e => e.2.2)

/-- The adjacency view `G[n]` of a multigraph: each direct parent mapped
to the relationship-kind keys of its parallel edges (each key paired with
its edge-attribute dictionary, which is empty for OBO graphs). -/
def pyAdjacency (g : GoGraph) (n : Nat) : PyV :=
  PyV.dict ((adjKeys g n).map fun p =>
    (PyV.n p, PyV.dict ((kindsBetween g n p).map fun k => (PyV.s k, PyV.dict []))))

/-- The term's attribute mapping `G.nodes[n]` (attribute keys mapped to
their stored string values). -/
def pyAttrMapping (g : GoGraph) (n : Nat) : PyV :=
  PyV.dict (((((g.nodes.find? (fun q => q.1 == n)).map Prod.snd).getD []).map
    fun kv => (PyV.s kv.1, PyV.s kv.2)))

/-- `networkx.is_directed_acyclic_graph`: no node of the graph starts an
edge leading back to itself. -/
def isDAG (g : GoGraph) : Bool :=
  (nodeIds g).all fun n =>
    (succsRaw g n).all fun m => !decide (n ∈ reachFrom g m)

/-- Out-degree of `n`: the number of out-edges, parallel edges counted. -/
def outDegree (g : GoGraph) (n : Nat) : Nat :=
  (g.edges.filter (fun e => e.1 == n)).length

/-- `G.out_edges(n, keys=True)`: the out-edges of `n`; an id absent from
the graph is quietly ignored, yielding no edges. -/
def adjOut (g : GoGraph) (n : Nat) : List (Nat × Nat × String) :=
  if hasNode g n then g.edges.filter (fun e => e.1 == n) else []

/-- Name lookup on a loaded graph: `G.nodes[goId]["name"]`, with any
lookup failure collapsed to `none`. -/
def gName (g : GoGraph) (goId : Nat) : Option String :=
  match g.nodes.find? (fun q => q.1 == goId) with
  | none => none
  | some q => (q.2.find? (fun kv => kv.1 == "name")).map Prod.snd

/-! ### The provider operations (`GeneOntologyProvider` methods).
The wrapped graph is `Option GoGraph`: `none` models a failed reload
leaving `self.__goGraph = None`; every `except` fallback in the source is
reproduced explicitly. -/

/-- `testCache`: the wrapped graph is truthy (non-`None` and non-empty),
is a DAG, and has more than 40000 nodes. -/
def testCache (og : Option GoGraph) : Bool :=
  match og with
  | none => false
  | some g =>
    if g.nodes.isEmpty then false
    else isDAG g && decide (g.nodes.length > 40000)

/-- `exists`: `goId in self.__goGraph`, `False` on any exception. -/
def goExists (og : Option GoGraph) (goId : Nat) : Bool :=
  match og with
  | none => false
  | some g => hasNode g goId

/-- `getNode`: `self.__goGraph[goId]`, which in networkx is the node's
adjacency view (not its attribute mapping); `None` on any exception. -/
def getNode (og : Option GoGraph) (goId : Nat) : Option PyV :=
  match og with
  | none => none
  | some g => if hasNode g goId then some (pyAdjacency g goId) else none

/-- `getRootNodes`: all nodes of out-degree zero; `None` on exception. -/
def getRootNodes (og : Option GoGraph) : Option (List Nat) :=
  match og with
  | none => none
  | some g => some ((nodeIds g).filter (fun n => outDegree g n == 0))

/-- `getName`: `self.__goGraph.nodes[goId]["name"]`, `None` on any
exception. -/
def getName (og : Option GoGraph) (goId : Nat) : Option String :=
  match og with
  | none => none
  | some g => gName g goId

/-- `getAdjacentParents`: the `(child, parent, key)` out-edges of `goId`,
empty on exception or unknown id. -/
def getAdjacentParents (og : Option GoGraph) (goId : Nat) :
    List (Nat × Nat × String) :=
  match og with
  | none => []
  | some g => adjOut g goId

/-- `getPredecessors`: the distinct direct children of `goId`, empty on
exception (unknown id or no graph). -/
def getPredecessors (og : Option GoGraph) (goId : Nat) : List Nat :=
  match og with
  | none => []
  | some g =>
    if hasNode g goId then
      dedupFirst ((g.edges.filter (fun e => e.2.1 == goId)).map (fun e => e.1))
    else []

/-- `getSuccessors`: the distinct direct parents of `goId`, empty on
exception (unknown id or no graph). -/
def getSuccessors (og : Option GoGraph) (goId : Nat) : List Nat :=
  match og with
  | none => []
  | some g => if hasNode g goId then dedupFirst (succsRaw g goId) else []

/-- `getDescendants`: the seed pair is appended first when `includeSelf`,
then one pair per element of `networkx.descendants`; when that call
raises (unknown id or no graph) the partially built list — possibly
already holding the seed pair — is returned. -/
def getDescendants (og : Option GoGraph) (goId : Nat) (includeSelf : Bool) :
    List (Nat × Option String) :=
  let linL : List (Nat × Option String) :=
    if includeSelf then [(goId, getName og goId)] else []
  match og with
  | none => linL
  | some g =>
    if hasNode g goId then
      linL ++ (nxDescendants g goId).map (fun nd => (nd, getName og nd))
    else linL

/-- `getUniqueDescendants`: accumulate seeds (when `includeSelf`) and
their descendants into a set, then emit `(id, name)` pairs sorted by id;
if any seed is unknown (or there is no graph and a seed is processed) the
exception aborts before anything is emitted, so the result is empty. -/
def getUniqueDescendants (og : Option GoGraph) (goIdL : List Nat)
    (includeSelf : Bool) : List (Nat × Option String) :=
  match og with
  | none => []
  | some g =>
    if goIdL.all (fun i => hasNode g i) then
      let ndS := goIdL.flatMap (fun goId =>
        (if includeSelf then [goId] else []) ++ nxDescendants g goId)
      ((dedupFirst ndS).insertionSort (· ≤ ·)).map (fun nd => (nd, getName og nd))
    else []

/-- `getFullNodeList`: every node id, `None` when there is no graph. -/
def getFullNodeList (og : Option GoGraph) : Option (List Nat) :=
  match og with
  | none => none
  | some g => some (nodeIds g)

/-- One exported tree record; `parents = none` models the omitted key. -/
structure TreeNode where
  id : Nat
  name : Option String
  parents : Option (List Nat)
deriving DecidableEq

/-- The record emitted for one node of the working set. -/
def treeRecord (g : GoGraph) (nd : Nat) : TreeNode :=
  let pIdL := (adjOut g nd).map (fun e => e.2.1)
  if pIdL.isEmpty then { id := nd, name := gName g nd, parents := none }
  else { id := nd, name := gName g nd, parents := some pIdL }

/-- `exportTreeNodeList`: start from the full node list (filtered when a
non-empty filter list is supplied — `if filterL:` is false for both
`None` and `[]`), drop unknown seeds, close the set under
`networkx.descendants`, and emit one record per member; empty when there
is no graph (the `len(None)` call raises). -/
def exportTreeNodeList (og : Option GoGraph) (filterL : Option (List Nat)) :
    List TreeNode :=
  match og with
  | none => []
  | some g =>
    let goIdL := match filterL with
      | none => nodeIds g
      | some fl =>
        if fl.isEmpty then nodeIds g
        else (nodeIds g).filter (fun gId => decide (gId ∈ fl))
    let ndS := goIdL.flatMap (fun goId =>
      if hasNode g goId then goId :: nxDescendants g goId else [])
    (dedupFirst ndS).map (treeRecord g)

/-! ### A small concrete graph for witnesses and counterexamples:
term 1 "is_a" term 2, term 2 "part_of" term 3; term 3 is the only root. -/

def gA : GoGraph :=
  { nodes := [(1, [("name", "alpha")]), (2, [("name", "beta")]),
              (3, [("name", "gamma")])]
    edges := [(1, 2, "is_a"), (2, 3, "part_of")] }

/-! ## Lemmas -/

theorem mem_dedupFirstAux (a : Nat) :
    ∀ (l seen : List Nat), a ∈ dedupFirstAux seen l ↔ a ∈ l ∧ a ∉ seen := by
  intro l
  induction l with
  | nil => intro seen; simp [dedupFirstAux]
  | cons b l ih =>
    intro seen
    by_cases hb : b ∈ seen
    · simp only [dedupFirstAux, if_pos hb, ih]
      constructor
      · rintro ⟨h1, h2⟩; exact ⟨List.mem_cons_of_mem _ h1, h2⟩
      · rintro ⟨h1, h2⟩
        rcases List.mem_cons.mp h1 with h | h
        · exact absurd (h ▸ hb) h2
        · exact ⟨h, h2⟩
    · simp only [dedupFirstAux, if_neg hb, List.mem_cons, ih]
      constructor
      · rintro (rfl | ⟨h1, h2⟩)
        · exact ⟨Or.inl rfl, hb⟩
        · exact ⟨Or.inr h1, fun hc => h2 (Or.inr hc)⟩
      · rintro ⟨rfl | h1, h2⟩
        · exact Or.inl rfl
        · by_cases hab : a = b
          · exact Or.inl hab
          · refine Or.inr ⟨h1, fun hc => ?_⟩
            rcases hc with h | h
            · exact hab h
            · exact h2 h

theorem mem_dedupFirst (a : Nat) (l : List Nat) :
    a ∈ dedupFirst l ↔ a ∈ l := by
  simp [dedupFirst, mem_dedupFirstAux]

theorem nodup_dedupFirstAux :
    ∀ (l seen : List Nat), (dedupFirstAux seen l).Nodup := by
  intro l
  induction l with
  | nil => intro seen; simp [dedupFirstAux]
  | cons b l ih =>
    intro seen
    by_cases hb : b ∈ seen
    · simpa [dedupFirstAux, if_pos hb] using ih seen
    · simp only [dedupFirstAux, if_neg hb]
      refine List.nodup_cons.mpr ⟨?_, ih (b :: seen)⟩
      intro hmem
      exact ((mem_dedupFirstAux b l (b :: seen)).mp hmem).2 (List.mem_cons_self _ _)

theorem nodup_dedupFirst (l : List Nat) : (dedupFirst l).Nodup :=
  nodup_dedupFirstAux l []

theorem subset_saturate (g : GoGraph) :
    ∀ (fuel : Nat) (s : List Nat), s ⊆ saturate g fuel s := by
  intro fuel
  induction fuel with
  | zero => intro s; exact fun _ h => h
  | succ fuel ih =>
    intro s
    simp only [saturate]
    split
    · exact fun _ h => h
    · exact fun a h => ih (s ++ _) (List.mem_append_left _ h)

theorem saturate_sound (g : GoGraph) (x : Nat) :
    ∀ (fuel : Nat) (s : List Nat), (∀ a ∈ s, Reaches g x a) →
      ∀ a ∈ saturate g fuel s, Reaches g x a := by
  intro fuel
  induction fuel with
  | zero => intro s hs; exact hs
  | succ fuel ih =>
    intro s hs
    simp only [saturate]
    split
    · exact hs
    · refine ih _ ?_
      intro a ha
      rcases List.mem_append.mp ha with h | h
      · exact hs a h
      · have h1 : a ∈ (s.flatMap (succsRaw g)).filter (fun b => !decide (b ∈ s)) :=
          (mem_dedupFirst _ _).mp h
        have h2 := List.mem_filter.mp h1
        rcases List.mem_flatMap.mp h2.1 with ⟨b, hb, hab⟩
        have hstep : edgeStep g b a := by
          rcases List.mem_map.mp hab with ⟨e, he, rfl⟩
          have := List.mem_filter.mp he
          exact ⟨e.2.2, by
            have heq : e.1 = b := by simpa using this.2
            have : (e.1, e.2.1, e.2.2) ∈ g.edges := by simpa using this.1
            simpa [heq] using this⟩
        exact Relation.ReflTransGen.tail (hs b hb) hstep

/-- Every element added by saturation is a parent endpoint of some edge,
hence lies in any list containing all such endpoints. -/
theorem saturate_subset_allowed (g : GoGraph) (A : List Nat)
    (hA : ∀ e ∈ g.edges, e.2.1 ∈ A) :
    ∀ (fuel : Nat) (s : List Nat), s ⊆ A → saturate g fuel s ⊆ A := by
  intro fuel
  induction fuel with
  | zero => intro s hs; exact hs
  | succ fuel ih =>
    intro s hs
    simp only [saturate]
    split
    · exact hs
    · refine ih _ ?_
      intro a ha
      rcases List.mem_append.mp ha with h | h
      · exact hs h
      · have h1 := List.mem_filter.mp ((mem_dedupFirst _ _).mp h)
        rcases List.mem_flatMap.mp h1.1 with ⟨b, _, hab⟩
        rcases List.mem_map.mp hab with ⟨e, he, rfl⟩
        exact hA e (List.mem_filter.mp he).1

theorem saturate_nodup (g : GoGraph) :
    ∀ (fuel : Nat) (s : List Nat), s.Nodup → (saturate g fuel s).Nodup := by
  intro fuel
  induction fuel with
  | zero => intro s hs; exact hs
  | succ fuel ih =>
    intro s hs
    simp only [saturate]
    split
    · exact hs
    · refine ih _ (List.nodup_append.mpr ⟨hs, nodup_dedupFirst _, ?_⟩)
      intro a ha hb
      have h1 := List.mem_filter.mp ((mem_dedupFirst _ _).mp hb)
      have : ¬ (a ∈ s) := by simpa using h1.2
      exact this ha

theorem nodup_subset_length_le {s t : List Nat} (hs : s.Nodup) (ht : t.Nodup)
    (hsub : s ⊆ t) : s.length ≤ t.length := by
  have h1 : s.toFinset ⊆ t.toFinset := by
    intro a ha
    exact List.mem_toFinset.mpr (hsub (List.mem_toFinset.mp ha))
  have := Finset.card_le_card h1
  rwa [List.toFinset_card_of_nodup hs, List.toFinset_card_of_nodup ht] at this

theorem mem_of_nodup_subset_length_le {s t : List Nat} (hs : s.Nodup)
    (ht : t.Nodup) (hsub : s ⊆ t) (hlen : t.length ≤ s.length) :
    ∀ a ∈ t, a ∈ s := by
  have h1 : s.toFinset ⊆ t.toFinset := by
    intro a ha
    exact List.mem_toFinset.mpr (hsub (List.mem_toFinset.mp ha))
  have h2 : t.toFinset.card ≤ s.toFinset.card := by
    rwa [List.toFinset_card_of_nodup hs, List.toFinset_card_of_nodup ht]
  have h3 := Finset.eq_of_subset_of_card_le h1 h2
  intro a ha
  exact List.mem_toFinset.mp (h3 ▸ List.mem_toFinset.mpr ha)

/-- With enough fuel, saturation returns a set closed under successors. -/
theorem saturate_closed (g : GoGraph) (A : List Nat) (hAnd : A.Nodup)
    (hA : ∀ e ∈ g.edges, e.2.1 ∈ A) :
    ∀ (fuel : Nat) (s : List Nat), s.Nodup → s ⊆ A →
      A.length ≤ fuel + s.length → IsClosed g (saturate g fuel s) := by
  intro fuel
  induction fuel with
  | zero =>
    intro s hs hsub hlen
    intro a ha b hb
    have hbA : b ∈ A := by
      rcases List.mem_map.mp hb with ⟨e, he, rfl⟩
      exact hA e (List.mem_filter.mp he).1
    exact mem_of_nodup_subset_length_le hs hAnd hsub (by simpa using hlen) b hbA
  | succ fuel ih =>
    intro s hs hsub hlen
    simp only [saturate]
    split
    · intro a ha b hb
      by_contra hbs
      have hmem : b ∈ (s.flatMap (succsRaw g)).filter (fun c => !decide (c ∈ s)) :=
        List.mem_filter.mpr ⟨List.mem_flatMap.mpr ⟨a, ha, hb⟩, by simpa using hbs⟩
      have : b ∈ dedupFirst ((s.flatMap (succsRaw g)).filter (fun c => !decide (c ∈ s))) :=
        (mem_dedupFirst _ _).mpr hmem
      rename_i hempty
      rw [List.isEmpty_iff] at hempty
      simp [hempty] at this
    · rename_i hempty
      have hnodup' : (s ++ dedupFirst ((s.flatMap (succsRaw g)).filter (fun c => !decide (c ∈ s)))).Nodup := by
        refine List.nodup_append.mpr ⟨hs, nodup_dedupFirst _, ?_⟩
        intro a ha hb
        have h1 := List.mem_filter.mp ((mem_dedupFirst _ _).mp hb)
        have : ¬ (a ∈ s) := by simpa using h1.2
        exact this ha
      have hsub' : (s ++ dedupFirst ((s.flatMap (succsRaw g)).filter (fun c => !decide (c ∈ s)))) ⊆ A := by
        intro a ha
        rcases List.mem_append.mp ha with h | h
        · exact hsub h
        · have h1 := List.mem_filter.mp ((mem_dedupFirst _ _).mp h)
          rcases List.mem_flatMap.mp h1.1 with ⟨b, _, hab⟩
          rcases List.mem_map.mp hab with ⟨e, he, rfl⟩
          exact hA e (List.mem_filter.mp he).1
      have hlen' : A.length ≤ fuel +
          (s ++ dedupFirst ((s.flatMap (succsRaw g)).filter (fun c => !decide (c ∈ s)))).length := by
        have hne : dedupFirst ((s.flatMap (succsRaw g)).filter (fun c => !decide (c ∈ s))) ≠ [] := by
          intro hnil
          rw [List.isEmpty_iff] at hempty
          exact hempty hnil
        have hone : 1 ≤ (dedupFirst ((s.flatMap (succsRaw g)).filter (fun c => !decide (c ∈ s)))).length :=
          Nat.one_le_iff_ne_zero.mpr (fun h0 => hne (List.eq_nil_of_length_eq_zero h0))
        rw [List.length_append]
        omega
      exact ih _ hnodup' hsub' hlen'

theorem reachFrom_closed (g : GoGraph) (x : Nat) : IsClosed g (reachFrom g x) := by
  refine saturate_closed g (allowedNodes g x) (nodup_dedupFirst _) ?_ _ [x] ?_ ?_ ?_
  · intro e he
    exact (mem_dedupFirst _ _).mpr (List.mem_cons_of_mem _ (List.mem_map_of_mem _ he))
  · simp
  · intro a ha
    have : a = x := by simpa using ha
    exact this ▸ (mem_dedupFirst _ _).mpr (List.mem_cons_self _ _)
  · simp

theorem self_mem_reachFrom (g : GoGraph) (x : Nat) : x ∈ reachFrom g x :=
  subset_saturate g _ [x] (List.mem_cons_self _ _)

theorem mem_succsRaw_of_edgeStep {g : GoGraph} {a b : Nat}
    (h : edgeStep g a b) : b ∈ succsRaw g a := by
  rcases h with ⟨k, hk⟩
  refine List.mem_map.mpr ⟨(a, b, k), List.mem_filter.mpr ⟨hk, by simp⟩, rfl⟩

/-- Correctness of the computed closure: membership in `reachFrom g x`
is exactly reachability from `x` along stored edge direction. -/
theorem mem_reachFrom_iff (g : GoGraph) (x y : Nat) :
    y ∈ reachFrom g x ↔ Reaches g x y := by
  constructor
  · intro h
    refine saturate_sound g x _ [x] ?_ y h
    intro a ha
    have : a = x := by simpa using ha
    exact this ▸ Relation.ReflTransGen.refl
  · intro h
    induction h with
    | refl => exact self_mem_reachFrom g x
    | tail _ hstep ih =>
      exact reachFrom_closed g x _ ih _ (mem_succsRaw_of_edgeStep hstep)

theorem hasNode_iff_mem (g : GoGraph) (n : Nat) :
    hasNode g n = true ↔ n ∈ nodeIds g := by
  simp only [hasNode, nodeIds, List.any_eq_true, List.mem_map, beq_iff_eq]

theorem edgeStep_iff_mem_succsRaw (g : GoGraph) (a b : Nat) :
    edgeStep g a b ↔ b ∈ succsRaw g a := by
  constructor
  · exact mem_succsRaw_of_edgeStep
  · intro h
    rcases List.mem_map.mp h with ⟨e, he, rfl⟩
    have h2 := List.mem_filter.mp he
    rcases e with ⟨e1, e2, e3⟩
    have heq : e1 = a := by simpa using h2.2
    exact ⟨e3, heq ▸ h2.1⟩

theorem mem_nxDescendants_iff (g : GoGraph) (x y : Nat) :
    y ∈ nxDescendants g x ↔ Reaches g x y ∧ y ≠ x := by
  simp [nxDescendants, List.mem_filter, mem_reachFrom_iff]

theorem find?_eq_none_of_not_hasNode {g : GoGraph} {x : Nat}
    (h : hasNode g x = false) :
    g.nodes.find? (fun q => q.1 == x) = none := by
  rw [List.find?_eq_none]
  intro q hq hbeq
  have : hasNode g x = true := List.any_eq_true.mpr ⟨q, hq, hbeq⟩
  rw [h] at this
  cases this

theorem gName_eq_none_of_not_hasNode {g : GoGraph} {x : Nat}
    (h : hasNode g x = false) : gName g x = none := by
  simp [gName, find?_eq_none_of_not_hasNode h]

theorem getName_absent {og : Option GoGraph} {x : Nat}
    (h : goExists og x = false) : getName og x = none := by
  match og with
  | none => rfl
  | some g =>
    have hn : hasNode g x = false := by simpa [goExists] using h
    simp [getName, gName_eq_none_of_not_hasNode hn]

/-- `is_directed_acyclic_graph` decides exactly the absence of directed
cycles, on graphs whose edges join actual nodes. -/
theorem isDAG_iff (g : GoGraph) (hw : EdgeWf g) :
    isDAG g = true ↔ ∀ n, ¬ OnCycle g n := by
  simp only [isDAG, List.all_eq_true]
  constructor
  · rintro h n ⟨m, hstep, hreach⟩
    have hn : n ∈ nodeIds g := by
      rcases hstep with ⟨k, hk⟩
      exact (hasNode_iff_mem g n).mp (hw _ hk).1
    have hm : m ∈ succsRaw g n := mem_succsRaw_of_edgeStep hstep
    have := h n hn m hm
    rw [Bool.not_eq_eq_eq_not, Bool.not_true, decide_eq_false_iff_not] at this
    exact this ((mem_reachFrom_iff g m n).mpr hreach)
  · intro h n _ m hm
    rw [Bool.not_eq_eq_eq_not, Bool.not_true, decide_eq_false_iff_not]
    intro hmem
    exact h n ⟨m, (edgeStep_iff_mem_succsRaw g n m).mpr hm,
      (mem_reachFrom_iff g m n).mp hmem⟩

/-- The id components of a present-seed `getDescendants` call. -/
theorem getDescendants_ids (g : GoGraph) (goId : Nat) (incl : Bool)
    (h : hasNode g goId = true) :
    (getDescendants (some g) goId incl).map Prod.fst =
      (if incl then [goId] else []) ++ nxDescendants g goId := by
  cases incl <;> simp [getDescendants, h, Function.comp_def]

theorem treeRecord_id (g : GoGraph) (nd : Nat) : (treeRecord g nd).id = nd := by
  simp only [treeRecord]
  split <;> rfl

theorem treeRecord_name (g : GoGraph) (nd : Nat) :
    (treeRecord g nd).name = gName g nd := by
  simp only [treeRecord]
  split <;> rfl

/-- `getDescendants(x, true)` always starts with the seed pair, and the
id `x` never recurs in the tail. -/
theorem getDescendants_true_cases (og : Option GoGraph) (x : Nat) :
    ∃ t, getDescendants og x true = (x, getName og x) :: t ∧
      x ∉ t.map Prod.fst := by
  match og with
  | none => exact ⟨[], rfl, by simp⟩
  | some g =>
    by_cases hx : hasNode g x = true
    · refine ⟨(nxDescendants g x).map (fun nd => (nd, getName (some g) nd)),
        by simp [getDescendants, hx], ?_⟩
      simp only [List.map_map, Function.comp_def, List.map_id']
      intro hmem
      exact ((mem_nxDescendants_iff g x x).mp hmem).2 rfl
    · refine ⟨[], ?_, by simp⟩
      have hx' : hasNode g x = false := by
        cases h : hasNode g x
        · rfl
        · exact absurd h hx
      simp [getDescendants, hx']

/-! ## Claims -/

/-- C6: for every id `x` with `exists(x) == false`, `getName(x)` is
absent and `getAdjacentParents(x)`, `getPredecessors(x)` and
`getSuccessors(x)` are empty; all four operations are total functions of
the wrapped graph in this embedding, so none can raise. -/
theorem absent_id_reads_empty (og : Option GoGraph) (x : Nat)
    (h : goExists og x = false) :
    getName og x = none ∧ getAdjacentParents og x = [] ∧
    getPredecessors og x = [] ∧ getSuccessors og x = [] := by
  match og with
  | none => exact ⟨rfl, rfl, rfl, rfl⟩
  | some g =>
    have hn : hasNode g x = false := by simpa [goExists] using h
    exact ⟨getName_absent h, by simp [getAdjacentParents, adjOut, hn],
      by simp [getPredecessors, hn], by simp [getSuccessors, hn]⟩

theorem absent_id_reads_empty_witness :
    goExists (some gA) 9 = false ∧
    (getName (some gA) 9 = none ∧ getAdjacentParents (some gA) 9 = [] ∧
     getPredecessors (some gA) 9 = [] ∧ getSuccessors (some gA) 9 = []) :=
  ⟨by decide, absent_id_reads_empty (some gA) 9 (by decide)⟩

/-- C7: for every id `x`, `getDescendants(x, true)` contains the pair
with id component `x` exactly once, and that pair — `(x, getName(x))` —
is the first element. -/
theorem getDescendants_self_once_first (og : Option GoGraph) (x : Nat) :
    ((getDescendants og x true).map Prod.fst).count x = 1 ∧
    (getDescendants og x true).head? = some (x, getName og x) := by
  obtain ⟨t, ht, hx⟩ := getDescendants_true_cases og x
  rw [ht]
  refine ⟨?_, rfl⟩
  rw [List.map_cons, List.count_cons_self, List.count_eq_zero.mpr hx]

/-- C9: `getRootNodes` on a loaded graph returns precisely the node ids
with no outgoing (child to parent) edge of any kind. -/
theorem getRootNodes_roots (g : GoGraph) :
    ∃ l, getRootNodes (some g) = some l ∧
      ∀ n, n ∈ l ↔ n ∈ nodeIds g ∧ ∀ p k, (n, p, k) ∉ g.edges := by
  refine ⟨_, rfl, fun n => ?_⟩
  rw [List.mem_filter]
  constructor
  · rintro ⟨hmem, hdeg⟩
    refine ⟨hmem, fun p k hpk => ?_⟩
    have hlen : (g.edges.filter (fun e => e.1 == n)).length = 0 := by
      simpa [outDegree] using hdeg
    have hfil : g.edges.filter (fun e => e.1 == n) = [] :=
      List.eq_nil_of_length_eq_zero hlen
    have hin : (n, p, k) ∈ g.edges.filter (fun e => e.1 == n) :=
      List.mem_filter.mpr ⟨hpk, by simp⟩
    rw [hfil] at hin
    cases hin
  · rintro ⟨hmem, hroot⟩
    refine ⟨hmem, ?_⟩
    have hfil : g.edges.filter (fun e => e.1 == n) = [] := by
      rw [List.filter_eq_nil_iff]
      rintro ⟨e1, e2, e3⟩ he hbeq
      have heq : e1 = n := by simpa using hbeq
      exact hroot e2 e3 (heq ▸ he)
    simp [outDegree, hfil]

/-- C10: with no wrapped graph (failed load), every query degrades:
`exists` is false, the four lookups return an absent value, the sequence
queries return empty sequences, and `testCache` is false — all total, no
raise. -/
theorem no_graph_queries_safe (x : Nat) (goIdL : List Nat) (incl : Bool)
    (fl : Option (List Nat)) :
    goExists none x = false ∧ getNode none x = none ∧
    getName none x = none ∧ getRootNodes none = none ∧
    getFullNodeList none = none ∧ getAdjacentParents none x = [] ∧
    getPredecessors none x = [] ∧ getSuccessors none x = [] ∧
    getUniqueDescendants none goIdL incl = [] ∧
    exportTreeNodeList none fl = [] ∧ testCache none = false :=
  ⟨rfl, rfl, rfl, rfl, rfl, rfl, rfl, rfl, rfl, rfl, rfl⟩

/-- C5: `testCache` is true exactly when a graph is wrapped, it is a
directed acyclic graph under the child-to-parent edges, and its node
count exceeds the 40000 floor; in particular a true result means no id
lies on a directed cycle (is reachable from itself through at least one
edge). -/
theorem testCache_iff_healthy (og : Option GoGraph)
    (hw : ∀ g, og = some g → EdgeWf g) :
    testCache og = true ↔
      ∃ g, og = some g ∧ (∀ n, ¬ OnCycle g n) ∧ g.nodes.length > 40000 := by
  match og with
  | none => simp [testCache]
  | some g =>
    have hwg : EdgeWf g := hw g rfl
    simp only [testCache]
    constructor
    · intro h
      by_cases hemp : g.nodes.isEmpty = true
      · rw [if_pos hemp] at h; cases h
      · rw [if_neg hemp, Bool.and_eq_true] at h
        exact ⟨g, rfl, (isDAG_iff g hwg).mp h.1, by simpa using h.2⟩
    · rintro ⟨g', hg', hacyc, hlen⟩
      injection hg' with hg'
      subst hg'
      have hne : g.nodes ≠ [] := by
        intro h0
        rw [h0] at hlen
        simp at hlen
      have hemp : ¬ g.nodes.isEmpty = true := by
        intro h0
        exact hne (List.isEmpty_iff.mp h0)
      rw [if_neg hemp, Bool.and_eq_true]
      exact ⟨(isDAG_iff g hwg).mpr hacyc, by simpa using hlen⟩

theorem testCache_iff_healthy_witness :
    testCache (some gA) = true ↔
      ∃ g, some gA = some g ∧ (∀ n, ¬ OnCycle g n) ∧ g.nodes.length > 40000 :=
  testCache_iff_healthy (some gA) (fun g h => by cases h; decide)

/-- C1 (counterexample): term 2 is one predecessor-direction step below
term 3 (edge 2 to 3), yet `getDescendants(3, false)` is empty — the
operation does not follow the predecessor direction. -/
theorem getDescendants_not_predecessor_direction :
    hasNode gA 3 = true ∧ SpecPredReaches gA 3 2 ∧ (2 : Nat) ≠ 3 ∧
    getDescendants (some gA) 3 false = [] :=
  ⟨by decide, Relation.ReflTransGen.single ⟨"part_of", by decide⟩,
   by decide, by decide⟩

/-- C1 (amended): for a present id, `getDescendants(id, includeSelf)`
returns exactly the terms reachable from `id` along the stored successor
(child to parent) edge direction — the more general terms transitively
above `id` — each paired with its display name, with the seed itself
first when `includeSelf`. -/
theorem getDescendants_reachable_up (g : GoGraph) (goId : Nat) (incl : Bool)
    (h : hasNode g goId = true) :
    (∀ y, y ∈ (getDescendants (some g) goId incl).map Prod.fst ↔
      ((incl = true ∧ y = goId) ∨ (Reaches g goId y ∧ y ≠ goId))) ∧
    (∀ p ∈ getDescendants (some g) goId incl, p.2 = getName (some g) p.1) ∧
    (incl = true → (getDescendants (some g) goId incl).head? =
      some (goId, getName (some g) goId)) := by
  refine ⟨?_, ?_, ?_⟩
  · intro y
    rw [getDescendants_ids g goId incl h]
    cases incl <;> simp [mem_nxDescendants_iff]
  · intro p hp
    have hsplit : getDescendants (some g) goId incl =
        (if incl then [(goId, getName (some g) goId)] else []) ++
          (nxDescendants g goId).map (fun nd => (nd, getName (some g) nd)) := by
      simp [getDescendants, h]
    rw [hsplit] at hp
    rcases List.mem_append.mp hp with h1 | h1
    · split at h1
      · have hp' : p = (goId, getName (some g) goId) := by simpa using h1
        rw [hp']
      · simp at h1
    · rcases List.mem_map.mp h1 with ⟨nd, _, rfl⟩
      rfl
  · intro hincl
    subst hincl
    simp [getDescendants, h]

theorem getDescendants_reachable_up_witness :
    (getDescendants (some gA) 1 true).head? = some (1, getName (some gA) 1) :=
  (getDescendants_reachable_up gA 1 true (by decide)).2.2 rfl

/-- C2 (counterexample): for the present id 1, `getNode` returns the
adjacency mapping (direct parent 2 with edge key), not the attribute
mapping that holds the `name` entry. -/
theorem getNode_not_attr_mapping :
    goExists (some gA) 1 = true ∧
    getNode (some gA) 1 = some (pyAdjacency gA 1) ∧
    getNode (some gA) 1 ≠ some (pyAttrMapping gA 1) := by
  refine ⟨by decide, rfl, ?_⟩
  intro hcontra
  have h1 : getNode (some gA) 1 =
      some (PyV.dict [(PyV.n 2, PyV.dict [(PyV.s "is_a", PyV.dict [])])]) := rfl
  have h2 : pyAttrMapping gA 1 = PyV.dict [(PyV.s "name", PyV.s "alpha")] := rfl
  rw [h1, h2] at hcontra
  simp at hcontra

/-- C2 (amended): `getNode(id)` returns the term's adjacency mapping —
each direct parent id mapped to the relationship-kind keys of the
parallel edges toward it, reflecting the edge set exactly — when the id
is in the graph, and an absent value (not an error) when unknown. -/
theorem getNode_adjacency (og : Option GoGraph) (goId : Nat) :
    (getNode og goId = none ↔ goExists og goId = false) ∧
    (∀ g, og = some g → hasNode g goId = true →
      getNode og goId = some (pyAdjacency g goId) ∧
      (∀ p, p ∈ adjKeys g goId ↔ edgeStep g goId p) ∧
      (∀ p k, k ∈ kindsBetween g goId p ↔ (goId, p, k) ∈ g.edges)) := by
  constructor
  · match og with
    | none => simp [getNode, goExists]
    | some g =>
      by_cases hx : hasNode g goId = true
      · simp [getNode, goExists, hx]
      · have hx' : hasNode g goId = false := by
          cases hh : hasNode g goId
          · rfl
          · exact absurd hh hx
        simp [getNode, goExists, hx']
  · rintro g rfl hx
    refine ⟨by simp [getNode, hx], ?_, ?_⟩
    · intro p
      unfold adjKeys
      rw [mem_dedupFirst]
      exact (edgeStep_iff_mem_succsRaw g goId p).symm
    · intro p k
      constructor
      · intro hk
        rcases List.mem_map.mp hk with ⟨⟨e1, e2, e3⟩, he, rfl⟩
        have h2 := List.mem_filter.mp he
        have hb := h2.2
        rw [Bool.and_eq_true] at hb
        have h3 : e1 = goId := by simpa using hb.1
        have h4 : e2 = p := by simpa using hb.2
        subst h3
        subst h4
        exact h2.1
      · intro hk
        exact List.mem_map.mpr ⟨(goId, p, k), List.mem_filter.mpr ⟨hk, by simp⟩, rfl⟩

theorem getNode_adjacency_witness :
    getNode (some gA) 1 = some (pyAdjacency gA 1) :=
  ((getNode_adjacency (some gA) 1).2 gA rfl (by decide)).1

/-- C4 (counterexample): for the absent id 9 with `includeSelf = true`,
`getDescendants` returns the non-empty `[(9, None)]`, not an empty or
absent result (the seed pair is appended before the traversal raises). -/
theorem absent_getDescendants_nonempty :
    goExists (some gA) 9 = false ∧
    getDescendants (some gA) 9 true = [(9, none)] ∧
    getDescendants (some gA) 9 true ≠ [] :=
  ⟨by decide, by decide, by decide⟩

/-- C4 (amended): read queries on an absent id never raise (every
operation is a total function in this embedding), and `getDescendants`
returns the single seed pair `(x, none)` when `includeSelf` is true and
the empty sequence when it is false. -/
theorem absent_getDescendants_partial (og : Option GoGraph) (x : Nat)
    (incl : Bool) (h : goExists og x = false) :
    getDescendants og x incl =
      if incl then [(x, (none : Option String))] else [] := by
  have hname : getName og x = none := getName_absent h
  match og with
  | none => simp [getDescendants, getName]
  | some g =>
    have hn : hasNode g x = false := by simpa [goExists] using h
    simp [getDescendants, hn, hname]

theorem absent_getDescendants_partial_witness :
    goExists (some gA) 9 = false ∧
    getDescendants (some gA) 9 true =
      (if true then [((9 : Nat), (none : Option String))] else []) :=
  ⟨by decide, absent_getDescendants_partial (some gA) 9 true (by decide)⟩

/-- C3 (counterexample): with the absent seed 9 the traversal raises and
the result is empty, while the union of the per-seed `getDescendants`
id sets is `{9}` — so the union/sortedness contract fails for seed
sequences containing absent ids. -/
theorem getUniqueDescendants_absent_seed :
    getUniqueDescendants (some gA) [9] true = [] ∧
    (getDescendants (some gA) 9 true).map Prod.fst = [9] :=
  ⟨by decide, by decide⟩

/-- C3 (amended): when every seed id is present in the graph,
`getUniqueDescendants(S, includeSelf)` is sorted ascending by id,
contains no duplicate ids, and its ids are exactly the union of the id
sets of `getDescendants(s, includeSelf)` over the seeds `s` in `S`
(with an absent seed, the exception instead empties the result). -/
theorem getUniqueDescendants_sorted_union (g : GoGraph) (goIdL : List Nat)
    (incl : Bool) (h : ∀ s ∈ goIdL, hasNode g s = true) :
    ((getUniqueDescendants (some g) goIdL incl).map Prod.fst).Sorted (· ≤ ·) ∧
    ((getUniqueDescendants (some g) goIdL incl).map Prod.fst).Nodup ∧
    (∀ y, y ∈ (getUniqueDescendants (some g) goIdL incl).map Prod.fst ↔
      ∃ s ∈ goIdL, y ∈ (getDescendants (some g) s incl).map Prod.fst) := by
  have hall : goIdL.all (fun i => hasNode g i) = true := List.all_eq_true.mpr h
  have hids : (getUniqueDescendants (some g) goIdL incl).map Prod.fst =
      (dedupFirst (goIdL.flatMap (fun goId =>
        (if incl then [goId] else []) ++ nxDescendants g goId))).insertionSort (· ≤ ·) := by
    simp [getUniqueDescendants, hall, List.map_map, Function.comp_def]
  rw [hids]
  refine ⟨List.sorted_insertionSort _ _, ?_, ?_⟩
  · exact ((List.perm_insertionSort _ _).symm).nodup (nodup_dedupFirst _)
  · intro y
    rw [List.mem_insertionSort, mem_dedupFirst, List.mem_flatMap]
    constructor
    · rintro ⟨s, hs, hy⟩
      refine ⟨s, hs, ?_⟩
      rw [getDescendants_ids g s incl (h s hs)]
      exact hy
    · rintro ⟨s, hs, hy⟩
      refine ⟨s, hs, ?_⟩
      rw [getDescendants_ids g s incl (h s hs)] at hy
      exact hy

theorem getUniqueDescendants_sorted_union_witness :
    ((getUniqueDescendants (some gA) [3, 1] false).map Prod.fst).Sorted (· ≤ ·) :=
  (getUniqueDescendants_sorted_union gA [3, 1] false (by decide)).1

/-- A node reached from somewhere else through at least one edge is a
node of the graph (last edge's endpoints are nodes). -/
theorem hasNode_of_reaches_ne {g : GoGraph} (hw : EdgeWf g) {s nd : Nat}
    (h : Reaches g s nd) (hne : nd ≠ s) : hasNode g nd = true := by
  rcases Relation.ReflTransGen.cases_tail h with h1 | ⟨c, _, hstep⟩
  · exact absurd h1 hne
  · rcases hstep with ⟨k, hk⟩
    exact (hw _ hk).2

theorem treeRecord_parents (g : GoGraph) (nd : Nat) :
    (treeRecord g nd).parents =
      if ((adjOut g nd).map (fun e => e.2.1)).isEmpty then none
      else some ((adjOut g nd).map (fun e => e.2.1)) := by
  simp only [treeRecord]
  split <;> rfl

/-- C8: with no filter, `exportTreeNodeList` emits exactly one record per
member of the full node list together with every term reachable from any
of them; each record carries the node's name, its `parents` are exactly
the direct parent ids computed by `getAdjacentParents`, and the field is
omitted exactly when the node has no outgoing parent edge in the global
graph. -/
theorem exportTreeNodeList_full (g : GoGraph) (hw : EdgeWf g) :
    ((exportTreeNodeList (some g) none).map TreeNode.id).Nodup ∧
    (∀ n, n ∈ (exportTreeNodeList (some g) none).map TreeNode.id ↔
      (n ∈ nodeIds g ∨ ∃ s ∈ nodeIds g, Reaches g s n ∧ n ≠ s)) ∧
    (∀ t ∈ exportTreeNodeList (some g) none,
      t.name = getName (some g) t.id ∧
      (t.parents = none ↔ ∀ p k, (t.id, p, k) ∉ g.edges) ∧
      (∀ pl, t.parents = some pl →
        pl = (getAdjacentParents (some g) t.id).map (fun e => e.2.1))) := by
  have hexp : exportTreeNodeList (some g) none =
      (dedupFirst ((nodeIds g).flatMap (fun goId =>
        if hasNode g goId then goId :: nxDescendants g goId else []))).map
        (treeRecord g) := rfl
  have hid : (exportTreeNodeList (some g) none).map TreeNode.id =
      dedupFirst ((nodeIds g).flatMap (fun goId =>
        if hasNode g goId then goId :: nxDescendants g goId else [])) := by
    rw [hexp, List.map_map]
    have hcmp : (TreeNode.id ∘ treeRecord g) = fun nd => nd := by
      funext nd
      exact treeRecord_id g nd
    rw [hcmp, List.map_id']
  refine ⟨?_, ?_, ?_⟩
  · rw [hid]
    exact nodup_dedupFirst _
  · intro n
    rw [hid, mem_dedupFirst, List.mem_flatMap]
    constructor
    · rintro ⟨s, hs, hn⟩
      rw [if_pos ((hasNode_iff_mem g s).mpr hs)] at hn
      rcases List.mem_cons.mp hn with rfl | hn
      · exact Or.inl hs
      · have hd := (mem_nxDescendants_iff g s n).mp hn
        exact Or.inr ⟨s, hs, hd.1, hd.2⟩
    · rintro (hn | ⟨s, hs, hr, hne⟩)
      · refine ⟨n, hn, ?_⟩
        rw [if_pos ((hasNode_iff_mem g n).mpr hn)]
        exact List.mem_cons_self _ _
      · refine ⟨s, hs, ?_⟩
        rw [if_pos ((hasNode_iff_mem g s).mpr hs)]
        exact List.mem_cons_of_mem _ ((mem_nxDescendants_iff g s n).mpr ⟨hr, hne⟩)
  · intro t ht
    rw [hexp] at ht
    rcases List.mem_map.mp ht with ⟨nd, hnd, rfl⟩
    have hmem := (mem_dedupFirst _ _).mp hnd
    have hndnode : hasNode g nd = true := by
      rcases List.mem_flatMap.mp hmem with ⟨s, hs, hn⟩
      rw [if_pos ((hasNode_iff_mem g s).mpr hs)] at hn
      rcases List.mem_cons.mp hn with rfl | hn
      · exact (hasNode_iff_mem g nd).mpr hs
      · have hd := (mem_nxDescendants_iff g s nd).mp hn
        exact hasNode_of_reaches_ne hw hd.1 hd.2
    refine ⟨?_, ?_, ?_⟩
    · rw [treeRecord_name, treeRecord_id]
      rfl
    · rw [treeRecord_id, treeRecord_parents]
      by_cases hemp : ((adjOut g nd).map (fun e => e.2.1)).isEmpty = true
      · rw [if_pos hemp]
        simp only [true_iff]
        intro p k hpk
        have hfil : adjOut g nd = [] :=
          List.map_eq_nil_iff.mp (List.isEmpty_iff.mp hemp)
        unfold adjOut at hfil
        rw [if_pos hndnode] at hfil
        have hin : (nd, p, k) ∈ g.edges.filter (fun e => e.1 == nd) :=
          List.mem_filter.mpr ⟨hpk, by simp⟩
        rw [hfil] at hin
        cases hin
      · rw [if_neg hemp]
        constructor
        · intro hcontra
          cases hcontra
        · intro hall
          exfalso
          have hne : adjOut g nd ≠ [] := by
            intro h0
            rw [h0] at hemp
            simp at hemp
          rcases List.exists_mem_of_ne_nil _ hne with ⟨e, he⟩
          unfold adjOut at he
          rw [if_pos hndnode] at he
          have h2 := List.mem_filter.mp he
          rcases e with ⟨e1, e2, e3⟩
          have h3 : e1 = nd := by simpa using h2.2
          exact hall e2 e3 (h3 ▸ h2.1)
    · intro pl hpl
      rw [treeRecord_parents] at hpl
      rw [treeRecord_id]
      by_cases hemp : ((adjOut g nd).map (fun e => e.2.1)).isEmpty = true
      · rw [if_pos hemp] at hpl
        cases hpl
      · rw [if_neg hemp] at hpl
        injection hpl with hpl
        rw [← hpl]
        rfl

theorem exportTreeNodeList_full_witness :
    ((exportTreeNodeList (some gA) none).map TreeNode.id).Nodup :=
  (exportTreeNodeList_full gA (by decide)).1

end GoP
